import Mathlib

/-
Verification of the section splitter and schema/type extractor in
src/split_docs.py.  The whole program is a pure text transform, embedded
here over List Char: the document content is a list of characters, its
lines are lists of characters, and the files the run writes are modelled
as a list of (path, text) pairs in the order the program writes them.
Console output and filesystem errors are outside the embedded state.
-/

namespace SplitDocs

/-- Backtick character, written by code to avoid a bare backtick token. -/
def btick : Char := Char.ofNat 96

/-- Opening curly brace character. -/
def lbrace : Char := Char.ofNat 123

/-- Closing curly brace character. -/
def rbrace : Char := Char.ofNat 125

/-- Python str.split with separator newline, as used by
`lines = content.split('\n')` (line 15 of split_docs.py): splitting the
empty text gives one empty line, and each newline separates two lines. -/
def pySplit : List Char → List (List Char)
  | [] => [[]]
  | c :: rest =>
    if c = '\n' then [] :: pySplit rest
    else
      match pySplit rest with
      | [] => [[c]]
      | h :: t => (c :: h) :: t

/-- Match a literal character sequence at the start of the text and
return the text after it.  This implements the literal pieces of the
regular expressions; it recurses on the pattern so that it computes even
when the tail of the text is symbolic. -/
def litPrefix : List Char → List Char → Option (List Char)
  | [], s => some s
  | _ :: _, [] => none
  | p :: ps, c :: cs => if p = c then litPrefix ps cs else none

/-- Heading matcher for the regex `^#...# (.+)$` with n hash marks
(h1_pattern .. h5_pattern, lines 22-26).  On a line produced by
pySplit (which never contains a newline) the regex matches exactly when
the line starts with n hashes and a space and at least one character
follows; the captured group is the rest of the line. -/
def headMatch (n : Nat) (line : List Char) : Option (List Char) :=
  (litPrefix (List.replicate n '#' ++ [' ']) line).bind fun t =>
    if t = [] then none else some t

/-- Matcher for `^# (.+)$` (h1_pattern, line 22). -/
def h1Match : List Char → Option (List Char) := headMatch 1

/-- Matcher for `^## (.+)$` (h2_pattern, line 23). -/
def h2Match : List Char → Option (List Char) := headMatch 2

/-- Matcher for `^### (.+)$` (h3_pattern, line 24; computed but unused by
the splitter, mirroring the dead recognition in the source). -/
def h3Match : List Char → Option (List Char) := headMatch 3

/-- Matcher for `^#### (.+)$` (h4_pattern, line 25; dead recognition). -/
def h4Match : List Char → Option (List Char) := headMatch 4

/-- Matcher for `^##### (.+)$` (h5_pattern, line 26; dead recognition). -/
def h5Match : List Char → Option (List Char) := headMatch 5

/-- A section as built by split_docs: title, content lines, level. -/
structure Section where
  title : List Char
  content : List (List Char)
  level : Nat
deriving DecidableEq, Repr

/-- One iteration of the scanning loop (lines 28-54): a line matching
h1 or h2 flushes the current section if its content is nonempty and
starts a new section whose content is just the heading line; any other
line is appended to the current section content. -/
def scanStep (st : List Section × Section) (line : List Char) : List Section × Section :=
  match h1Match line with
  | some t => ((if st.2.content = [] then st.1 else st.1 ++ [st.2]), ⟨t, [line], 1⟩)
  | none =>
    match h2Match line with
    | some t => ((if st.2.content = [] then st.1 else st.1 ++ [st.2]), ⟨t, [line], 2⟩)
    | none => (st.1, ⟨st.2.title, st.2.content ++ [line], st.2.level⟩)

/-- Final flush after the loop (lines 56-58): the in-progress section is
appended only if its content is nonempty. -/
def scanFinish (st : List Section × Section) : List Section :=
  if st.2.content = [] then st.1 else st.1 ++ [st.2]

/-- The section list produced by the scan (lines 18-58), starting from the
implicit section titled Introduction with empty content and level 1. -/
def splitSections (lines : List (List Char)) : List Section :=
  scanFinish (lines.foldl scanStep ([], ⟨"Introduction".toList, [], 1⟩))

/-- Python regex class backslash-s restricted to ASCII, as used on the
titles and code blocks of this repository (space, tab, newline, vertical
tab, form feed, carriage return). -/
def isPySpace (c : Char) : Bool :=
  c == ' ' || c == '\t' || c == '\n' || c == '\x0b' || c == '\x0c' || c == '\r'

/-- Python regex class backslash-w restricted to ASCII (letters, digits,
underscore), enough for the titles appearing in the claims. -/
def isWordChar (c : Char) : Bool :=
  c.isAlphanum || c == '_'

/-- A hyphen or whitespace character, the class collapsed by
`re.sub(r'[-\s]+', '-', filename)` on line 65. -/
def isSep (c : Char) : Bool :=
  c == '-' || isPySpace c

/-- Collapse every run of hyphen/whitespace characters into a single
hyphen, the effect of `re.sub(r'[-\s]+', '-', filename)` (line 65).  The
boolean records whether the previous character was part of a run. -/
def collapseAux : Bool → List Char → List Char
  | _, [] => []
  | inSep, c :: rest =>
    if isSep c then
      if inSep then collapseAux true rest
      else '-' :: collapseAux true rest
    else c :: collapseAux false rest

/-- Entry point of the run collapse, starting outside a run. -/
def collapseSep (l : List Char) : List Char := collapseAux false l

/-- Python str.strip with a single strip character: remove that character
from both ends (used as filename.strip with hyphen, line 66). -/
def stripChar (c : Char) (l : List Char) : List Char :=
  ((l.dropWhile (· = c)).reverse.dropWhile (· = c)).reverse

/-- Decimal digits of a natural number. -/
def natRepr (n : Nat) : List Char := (Nat.repr n).toList

/-- Python format 03d: left pad the decimal digits with zeros to width 3. -/
def pad3 (n : Nat) : List Char :=
  List.replicate (3 - (natRepr n).length) '0' ++ natRepr n

/-- Filename derivation from a section title (lines 62-70): strip every
character that is not word, whitespace or hyphen; collapse hyphen or
whitespace runs to one hyphen; strip hyphens at both ends and lowercase;
if the result is empty or shorter than 3 characters, replace it with
section_ followed by the 3 digit zero padded index. -/
def slugify (title : List Char) (i : Nat) : List Char :=
  let f1 := title.filter (fun c => isWordChar c || isPySpace c || c == '-')
  let f2 := collapseSep f1
  let f3 := (stripChar '-' f2).map Char.toLower
  if f3 = [] ∨ f3.length < 3 then "section_".toList ++ pad3 i else f3

/-- Basename of a section file, f-string on line 72: 3 digit zero padded
index, underscore, slug, extension md. -/
def sectionFileName (i : Nat) (title : List Char) : List Char :=
  pad3 i ++ '_' :: (slugify title i ++ ".md".toList)

/-- Full path of a section file: os.path.join of the output directory and
the basename, for a directory without a trailing slash (the default
docs_split). -/
def sectionPath (dir : List Char) (i : Nat) (title : List Char) : List Char :=
  dir ++ '/' :: sectionFileName i title

/-- Python os.path.basename for the flat paths this program builds: the
part after the last slash. -/
def osBasename (p : List Char) : List Char :=
  (p.reverse.takeWhile (fun c => !(c == '/'))).reverse

/-- Value stored in section_index for one section (lines 77-81). -/
structure IndexInfo where
  file : List Char
  lines : Nat
  level : Nat
deriving DecidableEq, Repr

/-- Index entry built for the section at position i (lines 77-81). -/
def mkInfo (dir : List Char) (i : Nat) (s : Section) : IndexInfo :=
  ⟨sectionPath dir i s.title, s.content.length, s.level⟩

/-- Python dict insertion keyed by title: if the key is present its value
is overwritten in place, otherwise the pair is appended, matching
`section_index[section['title']] = ...` in insertion order. -/
def dictInsert (d : List (List Char × IndexInfo)) (k : List Char) (v : IndexInfo) :
    List (List Char × IndexInfo) :=
  if d.any (fun p => p.1 == k) then
    d.map (fun p => if p.1 = k then (k, v) else p)
  else d ++ [(k, v)]

/-- The section_index mapping after the writing loop (lines 61-81). -/
def buildIndex (dir : List Char) (secs : List Section) : List (List Char × IndexInfo) :=
  secs.enum.foldl (fun d p => dictInsert d p.2.title (mkInfo dir p.1 p.2)) []

/-- Lookup in the modelled dict: value of the first (unique) entry whose
key equals the title. -/
def lookupIdx (d : List (List Char × IndexInfo)) (t : List Char) : Option IndexInfo :=
  (d.find? (fun p => p.1 == t)).map Prod.snd

/-- One line of the index body (lines 91-93): indent of two spaces per
level above one, then a markdown link to the file basename and the line
count. -/
def indexLine (e : List Char × IndexInfo) : List Char :=
  (List.replicate (e.2.level - 1) "  ".toList).flatten
    ++ "- [".toList ++ e.1 ++ "](./".toList ++ osBasename e.2.file
    ++ ") (".toList ++ natRepr e.2.lines ++ " lines)\n".toList

/-- Full text of 00_index.md (lines 86-93): header, the count of the
sections list, then one line per entry of section_index. -/
def indexContent (dir : List Char) (secs : List Section) : List Char :=
  "# Documentation Index\n\nTotal sections: ".toList ++ natRepr secs.length
    ++ "\n\n".toList ++ ((buildIndex dir secs).map indexLine).flatten

/-- A file written by the run: path and full text. -/
structure FileWrite where
  path : List Char
  text : List Char
deriving DecidableEq, Repr

/-- The per-section files written by the loop on lines 62-83: every
section gets a file, in order, whose text is the newline join of its
content lines. -/
def sectionFiles (dir : List Char) (secs : List Section) : List FileWrite :=
  secs.enum.map (fun p => ⟨sectionPath dir p.1 p.2.title, List.intercalate ['\n'] p.2.content⟩)

/-- Consume an opening or closing fence: three backticks.  Fails unless
the text starts with the fence. -/
def dropFence (s : List Char) : Option (List Char) :=
  litPrefix "```".toList s

/-- Optional language tag of schema_pattern (line 106) followed by the
mandatory newline.  The regex alternation tries graphql, then json, then
the empty tag; since a tag must be followed by a newline and the three
alternatives begin with distinct characters, at most one alternative can
succeed, so no cross alternative backtracking arises. -/
def schemaTag (s : List Char) : Option (List Char) :=
  match litPrefix "graphql\n".toList s with
  | some r => some r
  | none =>
    match litPrefix "json\n".toList s with
    | some r => some r
    | none => litPrefix "\n".toList s

/-- Optional language tag of type_pattern (line 105) followed by the
mandatory newline: graphql, typescript, javascript or nothing.  As for
schemaTag the alternatives are mutually exclusive. -/
def typeTag (s : List Char) : Option (List Char) :=
  match litPrefix "graphql\n".toList s with
  | some r => some r
  | none =>
    match litPrefix "typescript\n".toList s with
    | some r => some r
    | none =>
      match litPrefix "javascript\n".toList s with
      | some r => some r
      | none => litPrefix "\n".toList s

/-- Lazy middle of the schema capture: the regex matches any characters
lazily, then a closing brace immediately followed by the closing fence,
so the middle ends at the first closing brace whose next three characters
are backticks.  Returns the middle including that closing brace, and the
text after the fence. -/
def schemaBody : List Char → Option (List Char × List Char)
  | [] => none
  | c :: rest =>
    if c = rbrace then
      match litPrefix "```".toList rest with
      | some after => some ([c], after)
      | none => (schemaBody rest).map (fun p => (c :: p.1, p.2))
    else (schemaBody rest).map (fun p => (c :: p.1, p.2))

/-- Lazy tail of the type capture: any characters up to the first closing
fence (the regex dot with DOTALL matches anything, lazily, and the
pattern ends right at the fence).  Returns the consumed characters and
the text after the fence. -/
def upToFence : List Char → Option (List Char × List Char)
  | [] => none
  | c :: rest =>
    match litPrefix "```".toList (c :: rest) with
    | some after => some ([], after)
    | none => (upToFence rest).map (fun p => (c :: p.1, p.2))

/-- Step of schema_pattern after the tag: the body must begin with an
opening brace, then the lazy middle runs to the closing brace and
fence. -/
def schemaOpen : List Char → Option (List Char × List Char)
  | [] => none
  | c :: s3 =>
    if c = lbrace then (schemaBody s3).map (fun p => (c :: p.1, p.2)) else none

/-- Attempt of schema_pattern at the start of the text: fence, optional
tag with newline, an opening brace, then the lazy body.  Returns the
captured group and the text after the match. -/
def schemaAttempt (s : List Char) : Option (List Char × List Char) :=
  (dropFence s).bind fun s1 => (schemaTag s1).bind fun s2 => schemaOpen s2

/-- Attempt of type_pattern at the start of the text: fence, optional tag
with newline, the literal word type, one or more whitespace characters,
a word character, then lazily anything up to the first closing fence.
The whitespace and word characters are themselves never backticks, so the
greedy and lazy pieces interact deterministically: the capture runs from
the literal type to the first closing fence. -/
def typeAttempt (s : List Char) : Option (List Char × List Char) :=
  (dropFence s).bind fun s1 => (typeTag s1).bind fun s2 =>
  (litPrefix "type".toList s2).bind fun s4 =>
    if s4.takeWhile isPySpace ≠ [] ∧
        ((s4.dropWhile isPySpace).head?.elim false isWordChar) = true then
      (upToFence s4).map (fun p => ("type".toList ++ p.1, p.2))
    else none

/-- Scan of re.findall: at each position try the pattern; on a match,
record the capture and continue after the match, otherwise advance one
character.  Fuel bounds the recursion; the initial fuel, the text length,
never runs out because a match always consumes at least one character. -/
def scanAll (att : List Char → Option (List Char × List Char)) : Nat → List Char → List (List Char)
  | 0, _ => []
  | _ + 1, [] => []
  | fuel + 1, c :: rest =>
    match att (c :: rest) with
    | some (cap, after) => cap :: scanAll att fuel after
    | none => scanAll att fuel rest

/-- All captures of type_pattern over the document (line 108). -/
def typeFindall (s : List Char) : List (List Char) := scanAll typeAttempt s.length s

/-- All captures of schema_pattern over the document (line 109). -/
def schemaFindall (s : List Char) : List (List Char) := scanAll schemaAttempt s.length s

/-- One entry of graphql_types.md (line 116). -/
def typeEntry (i : Nat) (t : List Char) : List Char :=
  "## Type ".toList ++ natRepr i ++ "\n\n```graphql\n".toList ++ t ++ "```\n\n".toList

/-- Full text of graphql_types.md (lines 113-116): header then one entry
per capture, numbered from one. -/
def typesFileContent (types : List (List Char)) : List Char :=
  "# GraphQL Types\n\n".toList ++ (types.enum.map (fun p => typeEntry (p.1 + 1) p.2)).flatten

/-- One entry of schemas.md (line 125). -/
def schemaEntry (i : Nat) (s : List Char) : List Char :=
  "## Schema ".toList ++ natRepr i ++ "\n\n```json\n".toList ++ s ++ "```\n\n".toList

/-- Full text of schemas.md (lines 121-125): header, then an entry for
each capture longer than 100 characters, numbered by the position in the
unfiltered capture list. -/
def schemasFileContent (schemas : List (List Char)) : List Char :=
  "# Schemas\n\n".toList
    ++ (schemas.enum.map (fun p =>
          if 100 < p.2.length then schemaEntry (p.1 + 1) p.2 else [])).flatten

/-- Files written by extract_schemas_and_types (lines 101-126): the types
file only when a type capture exists, then the schemas file only when a
schema capture exists. -/
def extractorWrites (content dir : List Char) : List FileWrite :=
  (if typeFindall content ≠ [] then
      [⟨dir ++ "/graphql_types.md".toList, typesFileContent (typeFindall content)⟩]
    else [])
  ++ (if schemaFindall content ≠ [] then
      [⟨dir ++ "/schemas.md".toList, schemasFileContent (schemaFindall content)⟩]
    else [])

/-- Every file written by a run of split_docs, in write order: the
section files, the index file, then the extractor files. -/
def splitDocsWrites (content dir : List Char) : List FileWrite :=
  sectionFiles dir (splitSections (pySplit content))
    ++ [⟨dir ++ "/00_index.md".toList,
        indexContent dir (splitSections (pySplit content))⟩]
    ++ extractorWrites content dir

/-- Property of a section whose first content line is a level 1 or
level 2 heading; every section created at a heading boundary has it. -/
def headsProp (s : Section) : Prop :=
  ∃ l r, s.content = l :: r ∧ ((h1Match l).isSome ∨ (h2Match l).isSome)

/-- A fenced block as written in a document: fence, language tag, a
newline, the body, and the closing fence directly after the body. -/
def schemaBlockStr (tag b : List Char) : List Char :=
  "```".toList ++ tag ++ '\n' :: (b ++ "```".toList)

/-- The language tags accepted by schema_pattern: none, graphql, json. -/
def goodTag (t : List Char) : Prop :=
  t = [] ∨ t = "graphql".toList ∨ t = "json".toList

/-- A document made of fenced brace blocks: each segment is a gap, a tag
and the interior of the brace body; the final text follows the blocks. -/
def renderBlocks : List (List Char × List Char × List Char) → List Char → List Char
  | [], fin => fin
  | (gap, tag, mid) :: rest, fin =>
      gap ++ schemaBlockStr tag (lbrace :: (mid ++ [rbrace])) ++ renderBlocks rest fin

/-- Segment conditions under which the fenced block is matched cleanly:
the gap holds no backtick, the tag is accepted, and the body interior
holds no backtick. -/
def cleanSeg (seg : List Char × List Char × List Char) : Prop :=
  btick ∉ seg.1 ∧ goodTag seg.2.1 ∧ btick ∉ seg.2.2

theorem pySplit_ne_nil (s : List Char) : pySplit s ≠ [] := by
  induction s with
  | nil => simp [pySplit]
  | cons c rest ih =>
    unfold pySplit
    by_cases h : c = '\n'
    · simp [h]
    · simp only [h, if_false]
      cases hp : pySplit rest with
      | nil => simp
      | cons a t => simp

theorem scan_join (ls : List (List Char)) : ∀ secs cur,
    (((ls.foldl scanStep (secs, cur)).1.map Section.content).flatten)
      ++ ((ls.foldl scanStep (secs, cur)).2.content)
    = ((secs.map Section.content).flatten) ++ cur.content ++ ls := by
  induction ls with
  | nil => intro secs cur; simp
  | cons l t ih =>
    intro secs cur
    rw [List.foldl_cons]
    rcases hh1 : h1Match l with _ | t1
    · rcases hh2 : h2Match l with _ | t2
      · rw [show scanStep (secs, cur) l = (secs, ⟨cur.title, cur.content ++ [l], cur.level⟩) from by
          simp [scanStep, hh1, hh2]]
        rw [ih]; simp
      · rw [show scanStep (secs, cur) l
            = ((if cur.content = [] then secs else secs ++ [cur]), ⟨t2, [l], 2⟩) from by
          simp [scanStep, hh1, hh2]]
        rw [ih]
        by_cases hc : cur.content = [] <;> simp [hc]
    · rw [show scanStep (secs, cur) l
          = ((if cur.content = [] then secs else secs ++ [cur]), ⟨t1, [l], 1⟩) from by
        simp [scanStep, hh1]]
      rw [ih]
      by_cases hc : cur.content = [] <;> simp [hc]

theorem scanFinish_join (st : List Section × Section) :
    ((scanFinish st).map Section.content).flatten
      = (st.1.map Section.content).flatten ++ st.2.content := by
  unfold scanFinish
  by_cases h : st.2.content = [] <;> simp [h]

/-- C1: for every input document, concatenating the content line
sequences of all emitted sections, in discovery order, yields exactly the
document line sequence obtained by splitting the content on newline: the
segmentation drops, duplicates and reorders nothing. -/
theorem c1_concat_sections_eq_lines (content : List Char) :
    ((splitSections (pySplit content)).map Section.content).flatten = pySplit content := by
  unfold splitSections
  rw [scanFinish_join]
  have h := scan_join (pySplit content) [] ⟨"Introduction".toList, [], 1⟩
  simpa using h

theorem litPrefix_self_append : ∀ (pat r : List Char), litPrefix pat (pat ++ r) = some r := by
  intro pat
  induction pat with
  | nil => intro r; rfl
  | cons p ps ih =>
    intro r
    show litPrefix (p :: ps) (p :: (ps ++ r)) = some r
    unfold litPrefix
    rw [if_pos rfl]
    exact ih r

theorem litPrefix_some : ∀ (pat s r : List Char), litPrefix pat s = some r → s = pat ++ r := by
  intro pat
  induction pat with
  | nil =>
    intro s r h
    cases h
    rfl
  | cons p ps ih =>
    intro s r h
    cases s with
    | nil => simp [litPrefix] at h
    | cons c cs =>
      unfold litPrefix at h
      by_cases hpc : p = c
      · rw [if_pos hpc] at h
        rw [List.cons_append, ← ih cs r h, hpc]
      · rw [if_neg hpc] at h; cases h

theorem headMatch_some_shape {n : Nat} {line t : List Char}
    (h : headMatch n line = some t) : line = List.replicate n '#' ++ ' ' :: t := by
  unfold headMatch at h
  cases hp : litPrefix (List.replicate n '#' ++ [' ']) line with
  | none => simp only [hp, Option.none_bind] at h; exact absurd h (by simp)
  | some r =>
    simp only [hp, Option.some_bind] at h
    by_cases hr : r = []
    · rw [if_pos hr] at h; cases h
    · rw [if_neg hr] at h
      cases h
      have hs := litPrefix_some _ _ _ hp
      rw [hs]
      simp

theorem h1Match_of_h2_shape (t rest : List Char) :
    h1Match ('#' :: '#' :: rest) = none ∧ h2Match ('#' :: '#' :: '#' :: t) = none := by
  constructor <;> rfl

/-- C2: a line matching the level 1 pattern starts a new section whose
content is exactly that heading line at level 1; same for level 2; a line
matching the level 3, 4 or 5 patterns matches neither major pattern; and
a line matching no major pattern is appended to the section in progress
without starting a new section. -/
theorem c2_heading_rules :
    (∀ secs cur line t, h1Match line = some t →
        scanStep (secs, cur) line
          = ((if cur.content = [] then secs else secs ++ [cur]), ⟨t, [line], 1⟩))
    ∧ (∀ secs cur line t, h2Match line = some t →
        scanStep (secs, cur) line
          = ((if cur.content = [] then secs else secs ++ [cur]), ⟨t, [line], 2⟩))
    ∧ (∀ line, (h3Match line).isSome ∨ (h4Match line).isSome ∨ (h5Match line).isSome →
        h1Match line = none ∧ h2Match line = none)
    ∧ (∀ secs cur line, h1Match line = none → h2Match line = none →
        scanStep (secs, cur) line = (secs, ⟨cur.title, cur.content ++ [line], cur.level⟩)) := by
  refine ⟨?_, ?_, ?_, ?_⟩
  · intro secs cur line t h
    simp [scanStep, h]
  · intro secs cur line t h
    have hshape := headMatch_some_shape (n := 2) h
    have h1n : h1Match line = none := by rw [hshape]; rfl
    simp [scanStep, h1n, h]
  · intro line h
    rcases h with h | h | h
    · obtain ⟨t, ht⟩ := Option.isSome_iff_exists.mp h
      have hshape := headMatch_some_shape (n := 3) ht
      rw [hshape]
      constructor <;> rfl
    · obtain ⟨t, ht⟩ := Option.isSome_iff_exists.mp h
      have hshape := headMatch_some_shape (n := 4) ht
      rw [hshape]
      constructor <;> rfl
    · obtain ⟨t, ht⟩ := Option.isSome_iff_exists.mp h
      have hshape := headMatch_some_shape (n := 5) ht
      rw [hshape]
      constructor <;> rfl
  · intro secs cur line h1 h2
    simp [scanStep, h1, h2]

/-- Witness for C2 at the concrete lines hash Hi and triple hash Deep. -/
theorem c2_heading_rules_witness :
    scanStep ([], ⟨"Introduction".toList, [], 1⟩) "# Hi".toList
        = ([], ⟨"Hi".toList, ["# Hi".toList], 1⟩)
    ∧ scanStep ([], ⟨"Introduction".toList, ["x".toList], 1⟩) "### Deep".toList
        = ([], ⟨"Introduction".toList, ["x".toList, "### Deep".toList], 1⟩) := by
  constructor
  · have h := c2_heading_rules.1 [] ⟨"Introduction".toList, [], 1⟩ "# Hi".toList "Hi".toList
      (by decide)
    simpa using h
  · have hn := c2_heading_rules.2.2.1 "### Deep".toList (Or.inl (by decide))
    have h := c2_heading_rules.2.2.2 [] ⟨"Introduction".toList, ["x".toList], 1⟩
      "### Deep".toList hn.1 hn.2
    simpa using h

theorem scan_no_heading (ls : List (List Char)) : ∀ secs cur,
    (∀ l ∈ ls, h1Match l = none ∧ h2Match l = none) →
    ls.foldl scanStep (secs, cur) = (secs, ⟨cur.title, cur.content ++ ls, cur.level⟩) := by
  induction ls with
  | nil => intro secs cur _; simp
  | cons l t ih =>
    intro secs cur h
    have hl := h l (by simp)
    rw [List.foldl_cons]
    rw [show scanStep (secs, cur) l = (secs, ⟨cur.title, cur.content ++ [l], cur.level⟩) from by
      simp [scanStep, hl.1, hl.2]]
    rw [ih secs ⟨cur.title, cur.content ++ [l], cur.level⟩ (fun x hx => h x (by simp [hx]))]
    simp

theorem scan_append (ls : List (List Char)) : ∀ s0 secs cur,
    ls.foldl scanStep (s0 ++ secs, cur)
      = (s0 ++ (ls.foldl scanStep (secs, cur)).1, (ls.foldl scanStep (secs, cur)).2) := by
  induction ls with
  | nil => intro s0 secs cur; simp
  | cons l t ih =>
    intro s0 secs cur
    rw [List.foldl_cons, List.foldl_cons]
    have hstep : scanStep (s0 ++ secs, cur)
        = fun line => (s0 ++ (scanStep (secs, cur) line).1, (scanStep (secs, cur) line).2) := by
      funext line
      cases hh1 : h1Match line with
      | some t1 =>
        by_cases hc : cur.content = [] <;> simp [scanStep, hh1, hc]
      | none =>
        cases hh2 : h2Match line with
        | some t2 =>
          by_cases hc : cur.content = [] <;> simp [scanStep, hh1, hh2, hc]
        | none => simp [scanStep, hh1, hh2]
    rw [hstep]
    exact ih s0 (scanStep (secs, cur) l).1 (scanStep (secs, cur) l).2

theorem scanFinish_append (s0 A : List Section) (c : Section) :
    scanFinish (s0 ++ A, c) = s0 ++ scanFinish (A, c) := by
  unfold scanFinish
  by_cases h : c.content = [] <;> simp [h]

theorem scan_heads (ls : List (List Char)) : ∀ secs cur,
    (∀ s ∈ secs, headsProp s) → cur.content ≠ [] → headsProp cur →
    ∀ s ∈ scanFinish (ls.foldl scanStep (secs, cur)), headsProp s := by
  induction ls with
  | nil =>
    intro secs cur hsecs hne hcur s hs
    simp only [List.foldl_nil, scanFinish, hne, if_neg hne] at hs
    rcases List.mem_append.mp hs with h | h
    · exact hsecs s h
    · rw [List.mem_singleton.mp h]; exact hcur
  | cons l t ih =>
    intro secs cur hsecs hne hcur s hs
    rw [List.foldl_cons] at hs
    cases hh1 : h1Match l with
    | some t1 =>
      rw [show scanStep (secs, cur) l
          = ((if cur.content = [] then secs else secs ++ [cur]), ⟨t1, [l], 1⟩) from by
        simp [scanStep, hh1]] at hs
      rw [if_neg hne] at hs
      refine ih (secs ++ [cur]) ⟨t1, [l], 1⟩ ?_ (by simp) ?_ s hs
      · intro x hx
        rcases List.mem_append.mp hx with h | h
        · exact hsecs x h
        · rw [List.mem_singleton.mp h]; exact hcur
      · exact ⟨l, [], rfl, Or.inl (by simp [hh1])⟩
    | none =>
      cases hh2 : h2Match l with
      | some t2 =>
        rw [show scanStep (secs, cur) l
            = ((if cur.content = [] then secs else secs ++ [cur]), ⟨t2, [l], 2⟩) from by
          simp [scanStep, hh1, hh2]] at hs
        rw [if_neg hne] at hs
        refine ih (secs ++ [cur]) ⟨t2, [l], 2⟩ ?_ (by simp) ?_ s hs
        · intro x hx
          rcases List.mem_append.mp hx with h | h
          · exact hsecs x h
          · rw [List.mem_singleton.mp h]; exact hcur
        · exact ⟨l, [], rfl, Or.inr (by simp [hh2])⟩
      | none =>
        rw [show scanStep (secs, cur) l
            = (secs, ⟨cur.title, cur.content ++ [l], cur.level⟩) from by
          simp [scanStep, hh1, hh2]] at hs
        obtain ⟨hd, tl, hcontent, hhd⟩ := hcur
        refine ih secs ⟨cur.title, cur.content ++ [l], cur.level⟩ hsecs (by simp [hcontent]) ?_ s hs
        exact ⟨hd, tl ++ [l], by simp [hcontent], hhd⟩

/-- C7: the scan's very first section is the implicit Introduction one,
which accumulates all the lines preceding the first major heading and is
emitted in front of the rest exactly when that prefix is nonempty; when
the first line of the document is itself a major heading no Introduction
section is emitted, every emitted section starting with a heading line;
and at a heading boundary the section in progress is emitted exactly when
its content is nonempty. -/
theorem c7_introduction_and_flush :
    (∀ pre rest, pre ≠ [] → (∀ l ∈ pre, h1Match l = none ∧ h2Match l = none) →
        (rest = [] ∨ ∃ l rest2, rest = l :: rest2 ∧ ((h1Match l).isSome ∨ (h2Match l).isSome)) →
        splitSections (pre ++ rest)
          = ⟨"Introduction".toList, pre, 1⟩ :: splitSections rest)
    ∧ (∀ first rest, ((h1Match first).isSome ∨ (h2Match first).isSome) →
        ∀ s ∈ splitSections (first :: rest), headsProp s)
    ∧ (∀ secs cur line, cur.content = [] →
        ((h1Match line).isSome ∨ (h2Match line).isSome) →
        (scanStep (secs, cur) line).1 = secs)
    ∧ (∀ secs cur line, cur.content ≠ [] →
        ((h1Match line).isSome ∨ (h2Match line).isSome) →
        (scanStep (secs, cur) line).1 = secs ++ [cur]) := by
  refine ⟨?_, ?_, ?_, ?_⟩
  · intro pre rest hne hpre hrest
    unfold splitSections
    rw [List.foldl_append]
    rw [scan_no_heading pre [] ⟨"Introduction".toList, [], 1⟩ hpre]
    rcases hrest with rfl | ⟨l, rest2, rfl, hl⟩
    · simp [scanFinish, hne]
    · rw [List.foldl_cons, List.foldl_cons]
      rcases hl with hl | hl
      · obtain ⟨t1, ht1⟩ := Option.isSome_iff_exists.mp hl
        rw [show scanStep ([], ⟨"Introduction".toList, [] ++ pre, 1⟩) l
            = ([⟨"Introduction".toList, pre, 1⟩], ⟨t1, [l], 1⟩) from by
          simp [scanStep, ht1, hne]]
        rw [show scanStep ([], ⟨"Introduction".toList, [], 1⟩) l
            = ([], ⟨t1, [l], 1⟩) from by simp [scanStep, ht1]]
        rw [show ([⟨"Introduction".toList, pre, 1⟩] : List Section)
            = [⟨"Introduction".toList, pre, 1⟩] ++ [] from by simp]
        rw [scan_append rest2 [⟨"Introduction".toList, pre, 1⟩] [] ⟨t1, [l], 1⟩]
        rw [scanFinish_append]
        simp
      · obtain ⟨t2, ht2⟩ := Option.isSome_iff_exists.mp hl
        have hshape := headMatch_some_shape (n := 2) ht2
        have h1n : h1Match l = none := by rw [hshape]; rfl
        rw [show scanStep ([], ⟨"Introduction".toList, [] ++ pre, 1⟩) l
            = ([⟨"Introduction".toList, pre, 1⟩], ⟨t2, [l], 2⟩) from by
          simp [scanStep, h1n, ht2, hne]]
        rw [show scanStep ([], ⟨"Introduction".toList, [], 1⟩) l
            = ([], ⟨t2, [l], 2⟩) from by simp [scanStep, h1n, ht2]]
        rw [show ([⟨"Introduction".toList, pre, 1⟩] : List Section)
            = [⟨"Introduction".toList, pre, 1⟩] ++ [] from by simp]
        rw [scan_append rest2 [⟨"Introduction".toList, pre, 1⟩] [] ⟨t2, [l], 2⟩]
        rw [scanFinish_append]
        simp
  · intro first rest hfirst s hs
    unfold splitSections at hs
    rw [List.foldl_cons] at hs
    rcases hfirst with hl | hl
    · obtain ⟨t1, ht1⟩ := Option.isSome_iff_exists.mp hl
      rw [show scanStep ([], ⟨"Introduction".toList, [], 1⟩) first
          = ([], ⟨t1, [first], 1⟩) from by simp [scanStep, ht1]] at hs
      exact scan_heads rest [] ⟨t1, [first], 1⟩ (by simp) (by simp)
        ⟨first, [], rfl, Or.inl (by simp [ht1])⟩ s hs
    · obtain ⟨t2, ht2⟩ := Option.isSome_iff_exists.mp hl
      have hshape := headMatch_some_shape (n := 2) ht2
      have h1n : h1Match first = none := by rw [hshape]; rfl
      rw [show scanStep ([], ⟨"Introduction".toList, [], 1⟩) first
          = ([], ⟨t2, [first], 2⟩) from by simp [scanStep, h1n, ht2]] at hs
      exact scan_heads rest [] ⟨t2, [first], 2⟩ (by simp) (by simp)
        ⟨first, [], rfl, Or.inr (by simp [ht2])⟩ s hs
  · intro secs cur line hc hl
    rcases hl with hl | hl
    · obtain ⟨t1, ht1⟩ := Option.isSome_iff_exists.mp hl
      simp [scanStep, ht1, hc]
    · obtain ⟨t2, ht2⟩ := Option.isSome_iff_exists.mp hl
      have h1n : h1Match line = none := by
        rw [headMatch_some_shape (n := 2) ht2]; rfl
      simp [scanStep, h1n, ht2, hc]
  · intro secs cur line hc hl
    rcases hl with hl | hl
    · obtain ⟨t1, ht1⟩ := Option.isSome_iff_exists.mp hl
      simp [scanStep, ht1, hc]
    · obtain ⟨t2, ht2⟩ := Option.isSome_iff_exists.mp hl
      have h1n : h1Match line = none := by
        rw [headMatch_some_shape (n := 2) ht2]; rfl
      simp [scanStep, h1n, ht2, hc]

/-- Witness for C7: a document with one leading content line and one
heading emits the Introduction section in front, and a document starting
with a heading emits no Introduction section. -/
theorem c7_introduction_and_flush_witness :
    splitSections ["hello".toList, "# A".toList]
        = ⟨"Introduction".toList, ["hello".toList], 1⟩ :: splitSections ["# A".toList]
    ∧ ∀ s ∈ splitSections ["# A".toList, "body".toList], headsProp s := by
  constructor
  · exact c7_introduction_and_flush.1 ["hello".toList] ["# A".toList] (by decide)
      (by decide)
      (Or.inr ⟨"# A".toList, [], rfl, Or.inl (by decide)⟩)
  · exact c7_introduction_and_flush.2.1 "# A".toList ["body".toList] (Or.inl (by decide))

theorem scan_cur_ne (ls : List (List Char)) : ∀ secs cur,
    cur.content ≠ [] ∨ ls ≠ [] →
    ((ls.foldl scanStep (secs, cur)).2).content ≠ [] := by
  induction ls with
  | nil =>
    intro secs cur h
    rcases h with h | h
    · simpa using h
    · exact absurd rfl h
  | cons l t ih =>
    intro secs cur _
    rw [List.foldl_cons]
    cases hh1 : h1Match l with
    | some t1 =>
      rw [show scanStep (secs, cur) l
          = ((if cur.content = [] then secs else secs ++ [cur]), ⟨t1, [l], 1⟩) from by
        simp [scanStep, hh1]]
      exact ih _ _ (Or.inl (by simp))
    | none =>
      cases hh2 : h2Match l with
      | some t2 =>
        rw [show scanStep (secs, cur) l
            = ((if cur.content = [] then secs else secs ++ [cur]), ⟨t2, [l], 2⟩) from by
          simp [scanStep, hh1, hh2]]
        exact ih _ _ (Or.inl (by simp))
      | none =>
        rw [show scanStep (secs, cur) l
            = (secs, ⟨cur.title, cur.content ++ [l], cur.level⟩) from by
          simp [scanStep, hh1, hh2]]
        exact ih _ _ (Or.inl (by simp))

theorem splitSections_ne_nil (ls : List (List Char)) (h : ls ≠ []) :
    1 ≤ (splitSections ls).length := by
  unfold splitSections
  have := scan_cur_ne ls [] ⟨"Introduction".toList, [], 1⟩ (Or.inr h)
  unfold scanFinish
  rw [if_neg this]
  simp

/-- C10: every run writes at least one section file (so the section count
written to the index is at least one): splitting any content on newline
yields a nonempty line list, and the final section in progress always
holds at least the last line; in particular the empty document yields
exactly one section titled Introduction whose content is the single empty
line, written as an empty file named 000_introduction.md. -/
theorem c10_at_least_one_section :
    (∀ content dir : List Char,
        1 ≤ (splitSections (pySplit content)).length
        ∧ (sectionFiles dir (splitSections (pySplit content))).length
            = (splitSections (pySplit content)).length)
    ∧ splitSections (pySplit []) = [⟨"Introduction".toList, [[]], 1⟩]
    ∧ (∀ dir : List Char, sectionFiles dir (splitSections (pySplit []))
        = [⟨dir ++ "/000_introduction.md".toList, []⟩]) := by
  refine ⟨?_, by decide, ?_⟩
  · intro content dir
    refine ⟨splitSections_ne_nil _ (pySplit_ne_nil content), ?_⟩
    simp [sectionFiles]
  · intro dir
    rw [show splitSections (pySplit []) = [⟨"Introduction".toList, [[]], 1⟩] from by decide]
    show [(⟨dir ++ '/' :: sectionFileName 0 ("Introduction".toList),
        List.intercalate ['\n'] [[]]⟩ : FileWrite)] = _
    rw [show sectionFileName 0 ("Introduction".toList) = "000_introduction.md".toList from by
      decide]
    rfl

/-- C8: slug derivation maps the title Hello, World! 2024 to
hello-world-2024, maps the title made of a question mark and an
exclamation mark (which collapses to the empty string) to section_
followed by the zero padded index, and the file basename is the zero
padded index, an underscore, the slug and the md extension. -/
theorem c8_slug_examples : ∀ i : Nat,
    slugify "Hello, World! 2024".toList i = "hello-world-2024".toList
    ∧ slugify "?!".toList i = "section_".toList ++ pad3 i
    ∧ sectionFileName 7 "Hello, World! 2024".toList = "007_hello-world-2024.md".toList := by
  intro i
  exact ⟨rfl, rfl, by decide⟩

theorem lookupIdx_cons (p : List Char × IndexInfo) (d : List (List Char × IndexInfo))
    (t : List Char) :
    lookupIdx (p :: d) t = if p.1 == t then some p.2 else lookupIdx d t := by
  by_cases h : (p.1 == t) = true <;> simp [lookupIdx, List.find?, h]

theorem lookup_map_overwrite (d : List (List Char × IndexInfo)) (k : List Char) (v : IndexInfo)
    (t : List Char) (h : t ≠ k) :
    lookupIdx (d.map (fun q => if q.1 = k then (k, v) else q)) t = lookupIdx d t := by
  induction d with
  | nil => rfl
  | cons q d ih =>
    rw [List.map_cons, lookupIdx_cons, lookupIdx_cons]
    by_cases hq : q.1 = k
    · rw [if_pos hq]
      have h1 : (k == t) = false := beq_eq_false_iff_ne.mpr (fun e => h e.symm)
      have h2 : (q.1 == t) = false := by
        rw [hq]; exact h1
      simp [h1, h2, ih]
    · rw [if_neg hq]
      by_cases hqt : (q.1 == t) = true <;> simp [hqt, ih]

theorem lookup_append_single (d : List (List Char × IndexInfo)) (k : List Char) (v : IndexInfo)
    (t : List Char) (h : t ≠ k) :
    lookupIdx (d ++ [(k, v)]) t = lookupIdx d t := by
  induction d with
  | nil =>
    have h1 : (k == t) = false := beq_eq_false_iff_ne.mpr (fun e => h e.symm)
    simp [lookupIdx, List.find?, h1]
  | cons q d ih =>
    rw [List.cons_append, lookupIdx_cons, lookupIdx_cons]
    by_cases hqt : (q.1 == t) = true <;> simp [hqt, ih]

theorem dictInsert_lookup_self (d : List (List Char × IndexInfo)) (k : List Char)
    (v : IndexInfo) : lookupIdx (dictInsert d k v) k = some v := by
  induction d with
  | nil => simp [dictInsert, lookupIdx, List.find?]
  | cons p d ih =>
    by_cases hp : p.1 = k
    · have hany : (p :: d).any (fun q => q.1 == k) = true := by
        simp [List.any_cons, hp]
      rw [dictInsert, if_pos hany, List.map_cons, if_pos hp, lookupIdx_cons]
      simp
    · have hpk : (p.1 == k) = false := beq_eq_false_iff_ne.mpr hp
      by_cases hany : (p :: d).any (fun q => q.1 == k) = true
      · have hdany : d.any (fun q => q.1 == k) = true := by
          rcases List.any_eq_true.mp hany with ⟨x, hx, hxk⟩
          rcases List.mem_cons.mp hx with rfl | hx
          · exact absurd (by simpa using hxk) hp
          · exact List.any_eq_true.mpr ⟨x, hx, hxk⟩
        rw [dictInsert, if_pos hany, List.map_cons, if_neg hp, lookupIdx_cons, if_neg (by
          simp [hpk])]
        have hins : dictInsert d k v = d.map (fun q => if q.1 = k then (k, v) else q) := by
          rw [dictInsert, if_pos hdany]
        rw [← hins]
        exact ih
      · have hdany : ¬ d.any (fun q => q.1 == k) = true := by
          intro hd
          rcases List.any_eq_true.mp hd with ⟨x, hx, hxk⟩
          exact hany (List.any_eq_true.mpr ⟨x, by simp [hx], hxk⟩)
        rw [dictInsert, if_neg hany, List.cons_append, lookupIdx_cons, if_neg (by simp [hpk])]
        have hins : dictInsert d k v = d ++ [(k, v)] := by
          rw [dictInsert, if_neg hdany]
        rw [← hins]
        exact ih

theorem dictInsert_lookup_ne (d : List (List Char × IndexInfo)) (k : List Char) (v : IndexInfo)
    (t : List Char) (h : t ≠ k) : lookupIdx (dictInsert d k v) t = lookupIdx d t := by
  by_cases hany : d.any (fun q => q.1 == k) = true
  · rw [dictInsert, if_pos hany]
    exact lookup_map_overwrite d k v t h
  · rw [dictInsert, if_neg hany]
    exact lookup_append_single d k v t h

theorem buildIndex_lookup_gen (dir : List Char) : ∀ (l : List (Nat × Section))
    (d : List (List Char × IndexInfo)) (t : List Char),
    lookupIdx (l.foldl (fun d p => dictInsert d p.2.title (mkInfo dir p.1 p.2)) d) t
      = match l.reverse.find? (fun p => p.2.title == t) with
        | some p => some (mkInfo dir p.1 p.2)
        | none => lookupIdx d t := by
  intro l
  induction l with
  | nil => intro d t; rfl
  | cons p l ih =>
    intro d t
    rw [List.foldl_cons, ih, List.reverse_cons]
    cases hf : l.reverse.find? (fun q => q.2.title == t) with
    | some q => simp [List.find?_append, hf]
    | none =>
      by_cases hp : (p.2.title == t) = true
      · simp [List.find?_append, hf, List.find?, hp]
        have : t = p.2.title := (eq_of_beq hp).symm
        rw [this]
        exact dictInsert_lookup_self d p.2.title (mkInfo dir p.1 p.2)
      · simp [List.find?_append, hf, List.find?, hp]
        exact dictInsert_lookup_ne d p.2.title (mkInfo dir p.1 p.2) t
          (fun e => hp (by simp [e]))

theorem dictInsert_keys (d : List (List Char × IndexInfo)) (k : List Char) (v : IndexInfo) :
    (dictInsert d k v).map Prod.fst
      = if d.any (fun p => p.1 == k) then d.map Prod.fst else d.map Prod.fst ++ [k] := by
  by_cases h : d.any (fun p => p.1 == k) = true
  · rw [dictInsert, if_pos h, if_pos h, List.map_map]
    apply List.map_congr_left
    intro q _
    by_cases hq : q.1 = k <;> simp [hq]
  · rw [dictInsert, if_neg h, if_neg h, List.map_append]
    rfl

theorem buildIndex_keys_nodup_gen (dir : List Char) : ∀ (l : List (Nat × Section))
    (d : List (List Char × IndexInfo)), (d.map Prod.fst).Nodup →
    (((l.foldl (fun d p => dictInsert d p.2.title (mkInfo dir p.1 p.2)) d).map Prod.fst).Nodup) := by
  intro l
  induction l with
  | nil => intro d h; simpa using h
  | cons p l ih =>
    intro d h
    rw [List.foldl_cons]
    apply ih
    rw [dictInsert_keys]
    by_cases hany : d.any (fun q => q.1 == p.2.title) = true
    · rw [if_pos hany]; exact h
    · rw [if_neg hany]
      have hk : p.2.title ∉ d.map Prod.fst := by
        intro hmem
        rcases List.mem_map.mp hmem with ⟨q, hq, hqk⟩
        exact hany (List.any_eq_true.mpr ⟨q, hq, by simp [hqk]⟩)
      exact h.append (by simp) (fun a ha hb => hk (by rwa [List.mem_singleton.mp hb] at ha))

/-- C4: every section gets a file so the section count written to the
index equals the number of section files written and is a prefix of the
index text; the index body holds at most one entry per title; the entry
retained for a title carries the file path and line count of the last
section bearing that title; and a concrete document with two sections of
the same title yields two section files but a single index entry. -/
theorem c4_index_count_and_collision :
    (∀ dir secs, (sectionFiles dir secs).length = secs.length)
    ∧ (∀ dir secs, ("# Documentation Index\n\nTotal sections: ".toList
        ++ natRepr (sectionFiles dir secs).length ++ "\n\n".toList)
          <+: indexContent dir secs)
    ∧ (∀ dir secs, ((buildIndex dir secs).map Prod.fst).Nodup)
    ∧ (∀ dir secs t, lookupIdx (buildIndex dir secs) t
        = (secs.enum.reverse.find? (fun p => p.2.title == t)).map
            (fun p => mkInfo dir p.1 p.2))
    ∧ ((splitSections (pySplit "# A\nx\n# A\ny".toList)).length = 2
        ∧ (buildIndex [] (splitSections (pySplit "# A\nx\n# A\ny".toList))).length = 1) := by
  refine ⟨?_, ?_, ?_, ?_, by decide⟩
  · intro dir secs
    simp [sectionFiles, List.enum_length]
  · intro dir secs
    refine ⟨((buildIndex dir secs).map indexLine).flatten, ?_⟩
    rw [show (sectionFiles dir secs).length = secs.length from by
      simp [sectionFiles, List.enum_length]]
    simp [indexContent, List.append_assoc]
  · intro dir secs
    exact buildIndex_keys_nodup_gen dir secs.enum [] (by simp)
  · intro dir secs t
    have h := buildIndex_lookup_gen dir secs.enum [] t
    rw [show (secs.enum.foldl (fun d p => dictInsert d p.2.title (mkInfo dir p.1 p.2)) [])
        = buildIndex dir secs from rfl] at h
    rw [h]
    cases hf : secs.enum.reverse.find? (fun p => p.2.title == t) <;> simp [hf, lookupIdx]

theorem scanAll_nil (att : List Char → Option (List Char × List Char)) (fuel : Nat) :
    scanAll att fuel [] = [] := by
  cases fuel <;> rfl

theorem scanAll_congr (att : List Char → Option (List Char × List Char))
    (hlen : ∀ s cap after, att s = some (cap, after) → after.length < s.length) :
    ∀ fuel1 fuel2 s, s.length ≤ fuel1 → s.length ≤ fuel2 →
    scanAll att fuel1 s = scanAll att fuel2 s := by
  intro fuel1
  induction fuel1 with
  | zero =>
    intro fuel2 s h1 _
    have : s = [] := List.length_eq_zero.mp (Nat.le_zero.mp h1)
    subst this
    rw [scanAll_nil, scanAll_nil]
  | succ k ih =>
    intro fuel2 s h1 h2
    cases s with
    | nil => rw [scanAll_nil, scanAll_nil]
    | cons c rest =>
      cases fuel2 with
      | zero => simp at h2
      | succ m =>
        cases hatt : att (c :: rest) with
        | some p =>
          obtain ⟨cap, after⟩ := p
          have hlt := hlen _ _ _ hatt
          simp only [scanAll, hatt]
          congr 1
          exact ih m after (by simp at h1 hlt ⊢; omega) (by simp at h2 hlt ⊢; omega)
        | none =>
          simp only [scanAll, hatt]
          exact ih m rest (by simp at h1 ⊢; omega) (by simp at h2 ⊢; omega)

theorem scanAll_skip (att : List Char → Option (List Char × List Char))
    (hnb : ∀ c rest, c ≠ btick → att (c :: rest) = none) :
    ∀ pre rest, btick ∉ pre →
    scanAll att (pre ++ rest).length (pre ++ rest) = scanAll att rest.length rest := by
  intro pre
  induction pre with
  | nil => intro rest _; rfl
  | cons c pre ih =>
    intro rest h
    have hc : c ≠ btick := fun e => h (by simp [e])
    rw [List.cons_append, List.length_cons]
    simp only [scanAll, hnb c _ hc]
    exact ih rest (fun hm => h (List.mem_cons_of_mem _ hm))

theorem scanAll_step (att : List Char → Option (List Char × List Char))
    (hlen : ∀ s cap after, att s = some (cap, after) → after.length < s.length)
    (s cap after : List Char) (h : att s = some (cap, after)) :
    scanAll att s.length s = cap :: scanAll att after.length after := by
  cases s with
  | nil => have := hlen _ _ _ h; simp at this
  | cons c rest =>
    rw [List.length_cons]
    simp only [scanAll, h]
    congr 1
    have hlt := hlen _ _ _ h
    exact scanAll_congr att hlen rest.length after.length after
      (by simp at hlt ⊢; omega) le_rfl

theorem scanAll_clean (att : List Char → Option (List Char × List Char))
    (hnb : ∀ c rest, c ≠ btick → att (c :: rest) = none)
    (s : List Char) (h : btick ∉ s) : scanAll att s.length s = [] := by
  have h2 := scanAll_skip att hnb s [] h
  simpa using h2

theorem btick_list : "```".toList = [btick, btick, btick] := by decide

theorem litPrefix_bt_none (x : List Char) (c : Char) (hc : c ≠ btick) :
    litPrefix "```".toList (c :: x) = none := by
  rw [btick_list]
  show (if btick = c then litPrefix [btick, btick] x else none) = none
  rw [if_neg (fun e => hc e.symm)]

theorem dropFence_append (x : List Char) : dropFence ("```".toList ++ x) = some x :=
  litPrefix_self_append _ x

theorem dropFence_none (c : Char) (rest : List Char) (hc : c ≠ btick) :
    dropFence (c :: rest) = none :=
  litPrefix_bt_none rest c hc

theorem schemaAttempt_none (c : Char) (rest : List Char) (hc : c ≠ btick) :
    schemaAttempt (c :: rest) = none := by
  simp [schemaAttempt, dropFence_none c rest hc]

theorem typeAttempt_none (c : Char) (rest : List Char) (hc : c ≠ btick) :
    typeAttempt (c :: rest) = none := by
  simp [typeAttempt, dropFence_none c rest hc]

theorem dropFence_some_length (s t : List Char) (h : dropFence s = some t) :
    t.length < s.length := by
  have hs := litPrefix_some _ _ _ h
  rw [hs, List.length_append, show ("```".toList).length = 3 from rfl]
  omega

theorem schemaTag_some_length (s t : List Char) (h : schemaTag s = some t) :
    t.length < s.length := by
  unfold schemaTag at h
  cases h1 : litPrefix "graphql\n".toList s with
  | some r =>
    simp only [h1] at h
    cases h
    rw [litPrefix_some _ _ _ h1, List.length_append,
      show ("graphql\n".toList).length = 8 from rfl]
    omega
  | none =>
    simp only [h1] at h
    cases h2 : litPrefix "json\n".toList s with
    | some r =>
      simp only [h2] at h
      cases h
      rw [litPrefix_some _ _ _ h2, List.length_append,
        show ("json\n".toList).length = 5 from rfl]
      omega
    | none =>
      simp only [h2] at h
      rw [litPrefix_some _ _ _ h, List.length_append,
        show ("\n".toList).length = 1 from rfl]
      omega

theorem typeTag_some_length (s t : List Char) (h : typeTag s = some t) :
    t.length < s.length := by
  unfold typeTag at h
  cases h1 : litPrefix "graphql\n".toList s with
  | some r =>
    simp only [h1] at h
    cases h
    rw [litPrefix_some _ _ _ h1, List.length_append,
      show ("graphql\n".toList).length = 8 from rfl]
    omega
  | none =>
    simp only [h1] at h
    cases h2 : litPrefix "typescript\n".toList s with
    | some r =>
      simp only [h2] at h
      cases h
      rw [litPrefix_some _ _ _ h2, List.length_append,
        show ("typescript\n".toList).length = 11 from rfl]
      omega
    | none =>
      simp only [h2] at h
      cases h3 : litPrefix "javascript\n".toList s with
      | some r =>
        simp only [h3] at h
        cases h
        rw [litPrefix_some _ _ _ h3, List.length_append,
          show ("javascript\n".toList).length = 11 from rfl]
        omega
      | none =>
        simp only [h3] at h
        rw [litPrefix_some _ _ _ h, List.length_append,
          show ("\n".toList).length = 1 from rfl]
        omega

theorem schemaBody_some_length : ∀ (s p1 p2 : List Char),
    schemaBody s = some (p1, p2) → p2.length < s.length := by
  intro s
  induction s with
  | nil => intro p1 p2 h; simp [schemaBody] at h
  | cons c rest ih =>
    intro p1 p2 h
    unfold schemaBody at h
    have hmap : (schemaBody rest).map (fun p => (c :: p.1, p.2)) = some (p1, p2) →
        p2.length < (c :: rest).length := by
      intro hm
      rcases Option.map_eq_some'.mp hm with ⟨⟨q1, q2⟩, hq, hqe⟩
      have hlt := ih q1 q2 hq
      have hq2 : q2 = p2 := by
        have := congrArg Prod.snd hqe
        simpa using this
      rw [← hq2]
      simp
      omega
    by_cases hc : c = rbrace
    · rw [if_pos hc] at h
      cases hf : litPrefix "```".toList rest with
      | some after =>
        simp only [hf] at h
        cases h
        rw [List.length_cons, litPrefix_some _ _ _ hf, List.length_append,
          show ("```".toList).length = 3 from rfl]
        omega
      | none =>
        simp only [hf] at h
        exact hmap h
    · rw [if_neg hc] at h
      exact hmap h

theorem upToFence_some_length : ∀ (s p1 p2 : List Char),
    upToFence s = some (p1, p2) → p2.length < s.length := by
  intro s
  induction s with
  | nil => intro p1 p2 h; simp [upToFence] at h
  | cons c rest ih =>
    intro p1 p2 h
    unfold upToFence at h
    cases hf : litPrefix "```".toList (c :: rest) with
    | some after =>
      simp only [hf] at h
      cases h
      have hlen := congrArg List.length (litPrefix_some _ _ _ hf)
      rw [List.length_append, show ("```".toList).length = 3 from rfl] at hlen
      rw [hlen]
      omega
    | none =>
      simp only [hf] at h
      rcases Option.map_eq_some'.mp h with ⟨⟨q1, q2⟩, hq, hqe⟩
      have hlt := ih q1 q2 hq
      have hq2 : q2 = p2 := by
        have := congrArg Prod.snd hqe
        simpa using this
      rw [← hq2]
      simp
      omega

theorem schemaAttempt_length (s cap after : List Char)
    (h : schemaAttempt s = some (cap, after)) : after.length < s.length := by
  unfold schemaAttempt at h
  cases hd : dropFence s with
  | none => simp only [hd, Option.none_bind] at h; exact absurd h (by simp)
  | some s1 =>
    simp only [hd, Option.some_bind] at h
    cases ht : schemaTag s1 with
    | none => simp only [ht, Option.none_bind] at h; exact absurd h (by simp)
    | some s2 =>
      simp only [ht, Option.some_bind] at h
      cases s2 with
      | nil => simp [schemaOpen] at h
      | cons c s3 =>
        simp only [schemaOpen] at h
        by_cases hc : c = lbrace
        · rw [if_pos hc] at h
          rcases Option.map_eq_some'.mp h with ⟨⟨q1, q2⟩, hq, hqe⟩
          have h1 := schemaBody_some_length s3 q1 q2 hq
          have h2 := schemaTag_some_length s1 (c :: s3) ht
          have h3 := dropFence_some_length s s1 hd
          have h4 : q2 = after := by
            have := congrArg Prod.snd hqe
            simpa using this
          rw [← h4]
          simp at h2
          omega
        · rw [if_neg hc] at h; cases h

theorem typeAttempt_length (s cap after : List Char)
    (h : typeAttempt s = some (cap, after)) : after.length < s.length := by
  unfold typeAttempt at h
  cases hd : dropFence s with
  | none => simp only [hd, Option.none_bind] at h; exact absurd h (by simp)
  | some s1 =>
    simp only [hd, Option.some_bind] at h
    cases ht : typeTag s1 with
    | none => simp only [ht, Option.none_bind] at h; exact absurd h (by simp)
    | some s2 =>
      simp only [ht, Option.some_bind] at h
      cases hty : litPrefix "type".toList s2 with
      | none => simp only [hty, Option.none_bind] at h; exact absurd h (by simp)
      | some s4 =>
        simp only [hty, Option.some_bind] at h
        by_cases hin : s4.takeWhile isPySpace ≠ [] ∧
            ((s4.dropWhile isPySpace).head?.elim false isWordChar) = true
        · rw [if_pos hin] at h
          rcases Option.map_eq_some'.mp h with ⟨⟨q1, q2⟩, hq, hqe⟩
          have h1 := upToFence_some_length s4 q1 q2 hq
          have h2 := typeTag_some_length s1 s2 ht
          have h3 := dropFence_some_length s s1 hd
          have h4 : q2 = after := by
            have := congrArg Prod.snd hqe
            simpa using this
          have h5 := congrArg List.length (litPrefix_some _ _ _ hty)
          rw [List.length_append] at h5
          rw [← h4]
          omega
        · rw [if_neg hin] at h; cases h

theorem schemaTag_block (tag rest : List Char) (h : goodTag tag) :
    schemaTag (tag ++ '\n' :: rest) = some rest := by
  rcases h with rfl | rfl | rfl <;> rfl

theorem schemaBody_clean (mid : List Char) : ∀ rest, btick ∉ mid →
    schemaBody (mid ++ rbrace :: ("```".toList ++ rest)) = some (mid ++ [rbrace], rest) := by
  induction mid with
  | nil =>
    intro rest _
    show schemaBody (rbrace :: ("```".toList ++ rest)) = some ([rbrace], rest)
    unfold schemaBody
    rw [if_pos rfl]
    simp only [litPrefix_self_append]
  | cons c mid ih =>
    intro rest h
    have hc : c ≠ btick := fun e => h (by simp [e])
    have hnone : litPrefix "```".toList (mid ++ rbrace :: ("```".toList ++ rest)) = none := by
      cases hm : mid with
      | nil => simpa using litPrefix_bt_none ("```".toList ++ rest) rbrace (by decide)
      | cons d mid2 =>
        have hd : d ≠ btick := fun e => h (by simp [hm, e])
        rw [List.cons_append]
        exact litPrefix_bt_none _ d hd
    rw [List.cons_append]
    unfold schemaBody
    have hrec : (schemaBody (mid ++ rbrace :: ("```".toList ++ rest))).map
        (fun p => (c :: p.1, p.2)) = some (c :: (mid ++ [rbrace]), rest) := by
      rw [ih rest (fun hm => h (by simp [hm]))]
      rfl
    by_cases hcr : c = rbrace
    · rw [if_pos hcr]
      simp only [hnone]
      rw [hrec]
      simp
    · rw [if_neg hcr]
      rw [hrec]
      simp

theorem schemaAttempt_block (tag mid rest : List Char) (htag : goodTag tag)
    (hmid : btick ∉ mid) :
    schemaAttempt (schemaBlockStr tag (lbrace :: (mid ++ [rbrace])) ++ rest)
      = some (lbrace :: (mid ++ [rbrace]), rest) := by
  have hshape : schemaBlockStr tag (lbrace :: (mid ++ [rbrace])) ++ rest
      = "```".toList
          ++ (tag ++ '\n' :: (lbrace :: (mid ++ rbrace :: ("```".toList ++ rest)))) := by
    simp [schemaBlockStr]
  rw [hshape]
  unfold schemaAttempt
  rw [dropFence_append, Option.some_bind]
  rw [schemaTag_block tag _ htag, Option.some_bind]
  simp only [schemaOpen]
  rw [if_pos trivial]
  rw [schemaBody_clean mid rest hmid]
  rfl

/-- C6: the schema extractor finds every fenced block, optionally tagged
graphql or json, whose body is a single brace delimited object written
directly against the closing fence: for any document made of such blocks
separated by backtick free text, findall returns exactly the body of
every block in order, each capture ending at the first closing fence
after its opening brace. -/
theorem c6_schema_findall_blocks : ∀ (segs : List (List Char × List Char × List Char))
    (fin : List Char), (∀ seg ∈ segs, cleanSeg seg) → btick ∉ fin →
    schemaFindall (renderBlocks segs fin)
      = segs.map (fun seg => lbrace :: (seg.2.2 ++ [rbrace])) := by
  intro segs
  induction segs with
  | nil =>
    intro fin _ hfin
    exact scanAll_clean schemaAttempt (fun c r hc => schemaAttempt_none c r hc) fin hfin
  | cons seg segs ih =>
    obtain ⟨gap, tag, mid⟩ := seg
    intro fin hsegs hfin
    obtain ⟨hgap, htag, hmid⟩ := hsegs (gap, tag, mid) (by simp)
    show schemaFindall (gap ++ schemaBlockStr tag (lbrace :: (mid ++ [rbrace]))
        ++ renderBlocks segs fin) = _
    rw [List.append_assoc]
    unfold schemaFindall
    rw [scanAll_skip schemaAttempt (fun c r hc => schemaAttempt_none c r hc) gap _ hgap]
    rw [scanAll_step schemaAttempt schemaAttempt_length _ _ _
      (schemaAttempt_block tag mid (renderBlocks segs fin) htag hmid)]
    rw [show scanAll schemaAttempt (renderBlocks segs fin).length (renderBlocks segs fin)
        = schemaFindall (renderBlocks segs fin) from rfl]
    rw [ih fin (fun x hx => hsegs x (by simp [hx])) hfin]
    rfl

/-- Witness for C6: one json tagged block between backtick free text. -/
theorem c6_schema_findall_blocks_witness :
    schemaFindall ("x```json\n\x7ba\x7d```y".toList) = ["\x7ba\x7d".toList] := by
  have h := c6_schema_findall_blocks [("x".toList, "json".toList, "a".toList)] "y".toList
    (by
      intro seg hseg
      rw [List.mem_singleton.mp hseg]
      exact ⟨by decide, Or.inr (Or.inr rfl), by decide⟩)
    (by decide)
  rw [show ("x```json\n\x7ba\x7d```y".toList)
      = renderBlocks [("x".toList, "json".toList, "a".toList)] "y".toList from by decide]
  rw [h]
  decide

theorem typeAttempt_user (rest : List Char) :
    typeAttempt ("```graphql\ntype User \x7b id: ID! \x7d\n```".toList ++ rest)
      = some ("type User \x7b id: ID! \x7d\n".toList, rest) := rfl

/-- C9: for every document made of the graphql fenced block declaring the
User type surrounded by backtick free text, the extractor captures the
block body exactly once, and graphql_types.md is written with one entry
Type 1 whose fenced body reproduces the original block character for
character; the types file is in the write list exactly when at least one
type capture exists. -/
theorem c9_type_extraction :
    (∀ pre post dir : List Char, btick ∉ pre → btick ∉ post →
        typeFindall (pre ++ "```graphql\ntype User \x7b id: ID! \x7d\n```".toList ++ post)
            = ["type User \x7b id: ID! \x7d\n".toList]
          ∧ (⟨dir ++ "/graphql_types.md".toList,
              ("# GraphQL Types\n\n## Type 1\n\n```graphql\ntype User \x7b id: ID! "
                ++ "\x7d\n```\n\n").toList⟩ : FileWrite)
              ∈ extractorWrites
                  (pre ++ "```graphql\ntype User \x7b id: ID! \x7d\n```".toList ++ post) dir)
    ∧ (∀ content dir : List Char,
        (dir ++ "/graphql_types.md".toList) ∈ (extractorWrites content dir).map FileWrite.path
          ↔ typeFindall content ≠ []) := by
  constructor
  · intro pre post dir hpre hpost
    have hfind : typeFindall
        (pre ++ "```graphql\ntype User \x7b id: ID! \x7d\n```".toList ++ post)
        = ["type User \x7b id: ID! \x7d\n".toList] := by
      unfold typeFindall
      rw [List.append_assoc]
      rw [scanAll_skip typeAttempt (fun c r hc => typeAttempt_none c r hc) pre _ hpre]
      rw [scanAll_step typeAttempt typeAttempt_length _ _ _ (typeAttempt_user post)]
      rw [scanAll_clean typeAttempt (fun c r hc => typeAttempt_none c r hc) post hpost]
    refine ⟨hfind, ?_⟩
    unfold extractorWrites
    rw [hfind]
    rw [if_pos (by simp)]
    apply List.mem_append_left
    rw [show typesFileContent ["type User \x7b id: ID! \x7d\n".toList]
        = ("# GraphQL Types\n\n## Type 1\n\n```graphql\ntype User \x7b id: ID! "
            ++ "\x7d\n```\n\n").toList from by decide]
    simp
  · intro content dir
    have hne2 : ("/graphql_types.md".toList : List Char) ≠ "/schemas.md".toList := by decide
    unfold extractorWrites
    by_cases ht : typeFindall content = [] <;> by_cases hs : schemaFindall content = [] <;>
      simp [ht, hs, hne2]

/-- Witness for C9 at a concrete document. -/
theorem c9_type_extraction_witness :
    typeFindall ("a```graphql\ntype User \x7b id: ID! \x7d\n```b".toList)
      = ["type User \x7b id: ID! \x7d\n".toList] := by
  have h := (c9_type_extraction.1 "a".toList "b".toList [] (by decide) (by decide)).1
  rw [show ("a```graphql\ntype User \x7b id: ID! \x7d\n```b".toList : List Char)
      = "a".toList ++ "```graphql\ntype User \x7b id: ID! \x7d\n```".toList ++ "b".toList
      from by decide]
  exact h

theorem schemas_entries_nil : ∀ (l : List (List Char)) (n : Nat),
    (∀ s ∈ l, ¬ 100 < s.length) →
    ((List.enumFrom n l).map
      (fun p => if 100 < p.2.length then schemaEntry (p.1 + 1) p.2 else [])).flatten = [] := by
  intro l
  induction l with
  | nil => intro n _; rfl
  | cons s l ih =>
    intro n h
    rw [List.enumFrom_cons]
    simp only [List.map_cons, List.flatten_cons]
    rw [if_neg (h s (by simp))]
    simp [ih (n + 1) (fun x hx => h x (by simp [hx]))]

/-- C5: schemas.md appears in the write list exactly when at least one
schema capture exists; when every capture has at most 100 characters the
file text is only the header; and with a short first capture and a long
second capture the file holds a single entry numbered Schema 2, the
skipped short capture still consuming its index. -/
theorem c5_schemas_file_behavior :
    (∀ content dir : List Char,
        (dir ++ "/schemas.md".toList) ∈ (extractorWrites content dir).map FileWrite.path
          ↔ schemaFindall content ≠ [])
    ∧ (∀ l : List (List Char), (∀ s ∈ l, ¬ 100 < s.length) →
        schemasFileContent l = "# Schemas\n\n".toList)
    ∧ schemasFileContent
        [lbrace :: ('a' :: [rbrace]), lbrace :: (List.replicate 100 'a' ++ [rbrace])]
        = "# Schemas\n\n".toList
            ++ schemaEntry 2 (lbrace :: (List.replicate 100 'a' ++ [rbrace])) := by
  refine ⟨?_, ?_, by decide⟩
  · intro content dir
    have hne2 : ("/schemas.md".toList : List Char) ≠ "/graphql_types.md".toList := by decide
    unfold extractorWrites
    by_cases ht : typeFindall content = [] <;> by_cases hs : schemaFindall content = [] <;>
      simp [ht, hs, hne2]
  · intro l h
    unfold schemasFileContent
    rw [show l.enum = List.enumFrom 0 l from rfl]
    rw [schemas_entries_nil l 0 h]
    simp

/-- Witness for C5: a single short capture produces the header only. -/
theorem c5_schemas_file_behavior_witness :
    schemasFileContent [['a', 'b']] = "# Schemas\n\n".toList :=
  c5_schemas_file_behavior.2.1 [['a', 'b']] (by decide)

theorem takeWhile_all_append (p : Char → Bool) : ∀ (a : List Char) (b : Char) (x : List Char),
    (∀ c ∈ a, p c = true) → p b = false →
    (a ++ b :: x).takeWhile p = a := by
  intro a
  induction a with
  | nil =>
    intro b x _ hb
    simp [List.takeWhile_cons, hb]
  | cons c a ih =>
    intro b x h hb
    rw [List.cons_append, List.takeWhile_cons, if_pos (h c (by simp))]
    rw [ih b x (fun d hd => h d (by simp [hd])) hb]

theorem osBasename_append (d n : List Char) (h : '/' ∉ n) :
    osBasename (d ++ '/' :: n) = n := by
  unfold osBasename
  have hrev : (d ++ '/' :: n).reverse = n.reverse ++ '/' :: d.reverse := by
    simp
  rw [hrev]
  rw [takeWhile_all_append _ n.reverse '/' d.reverse ?ha ?hb]
  · exact List.reverse_reverse n
  case ha =>
    intro c hc
    have : c ≠ '/' := fun e => h (by rw [← e]; exact List.mem_reverse.mp hc)
    simp [this]
  case hb => simp

/-- C3 counterexample: on the empty input the run does not write only the
index file: it writes the Introduction section file as well, and the
section count is 1, never 0. -/
theorem c3_counterexample_empty_input :
    (splitDocsWrites [] "docs_split".toList).map FileWrite.path
        = ["docs_split/000_introduction.md".toList, "docs_split/00_index.md".toList]
    ∧ "docs_split/000_introduction.md".toList ≠ "docs_split/00_index.md".toList := by
  constructor
  · decide
  · decide

/-- C3 amended: for an input with no recognizable heading and no
extractor match, the run writes exactly two files: the Introduction
section file holding the whole text, and the index file whose count line
says Total sections: 1. -/
theorem c3_amended_no_heading_writes (content dir : List Char)
    (hhead : ∀ l ∈ pySplit content, h1Match l = none ∧ h2Match l = none)
    (htype : typeFindall content = []) (hschema : schemaFindall content = []) :
    splitDocsWrites content dir
      = [⟨dir ++ "/000_introduction.md".toList, List.intercalate ['\n'] (pySplit content)⟩,
         ⟨dir ++ "/00_index.md".toList,
          ("# Documentation Index\n\nTotal sections: 1\n\n"
            ++ "- [Introduction](./000_introduction.md) (").toList
            ++ natRepr (pySplit content).length ++ " lines)\n".toList⟩] := by
  have hsecs : splitSections (pySplit content)
      = [⟨"Introduction".toList, pySplit content, 1⟩] := by
    unfold splitSections
    rw [scan_no_heading (pySplit content) [] ⟨"Introduction".toList, [], 1⟩ hhead]
    unfold scanFinish
    rw [if_neg (by simpa using pySplit_ne_nil content)]
    simp
  unfold splitDocsWrites
  rw [hsecs]
  rw [show extractorWrites content dir = [] from by simp [extractorWrites, htype, hschema]]
  have hpath : sectionPath dir 0 ("Introduction".toList) = dir ++ "/000_introduction.md".toList := by
    unfold sectionPath
    rw [show sectionFileName 0 ("Introduction".toList) = "000_introduction.md".toList from by
      decide]
    rfl
  have hfiles : sectionFiles dir [⟨"Introduction".toList, pySplit content, 1⟩]
      = [⟨dir ++ "/000_introduction.md".toList, List.intercalate ['\n'] (pySplit content)⟩] := by
    unfold sectionFiles
    rw [show ([(⟨"Introduction".toList, pySplit content, 1⟩ : Section)]).enum
        = [(0, (⟨"Introduction".toList, pySplit content, 1⟩ : Section))] from rfl]
    rw [List.map_cons]
    rw [hpath]
    rfl
  have hbase : osBasename (dir ++ "/000_introduction.md".toList)
      = "000_introduction.md".toList := by
    rw [show (dir ++ "/000_introduction.md".toList : List Char)
        = dir ++ '/' :: "000_introduction.md".toList from rfl]
    exact osBasename_append dir _ (by decide)
  have hindex : indexContent dir [⟨"Introduction".toList, pySplit content, 1⟩]
      = ("# Documentation Index\n\nTotal sections: 1\n\n"
          ++ "- [Introduction](./000_introduction.md) (").toList
          ++ natRepr (pySplit content).length ++ " lines)\n".toList := by
    unfold indexContent
    rw [show buildIndex dir [⟨"Introduction".toList, pySplit content, 1⟩]
        = [("Introduction".toList,
            ⟨sectionPath dir 0 ("Introduction".toList), (pySplit content).length, 1⟩)] from rfl]
    rw [List.map_cons]
    unfold indexLine
    rw [hpath, hbase]
    rw [show ([(⟨"Introduction".toList, pySplit content, 1⟩ : Section)]).length = 1 from rfl]
    rw [show natRepr 1 = ['1'] from by decide]
    simp only [List.map_nil, List.flatten_cons, List.flatten_nil, List.append_nil,
      List.nil_append, ← List.append_assoc]
    congr 1
  rw [hfiles, hindex]
  rfl

/-- Witness for the amended C3 at a concrete heading free input. -/
theorem c3_amended_no_heading_writes_witness :
    splitDocsWrites "hello".toList "out".toList
      = [⟨"out/000_introduction.md".toList, "hello".toList⟩,
         ⟨"out/00_index.md".toList,
          ("# Documentation Index\n\nTotal sections: 1\n\n"
            ++ "- [Introduction](./000_introduction.md) (1 lines)\n").toList⟩] := by
  have h := c3_amended_no_heading_writes "hello".toList "out".toList
    (by decide) (by decide) (by decide)
  exact h.trans (by decide)

end SplitDocs
